import Mathlib

/-!
Verification of the distributed path-finder's core routing engine.

This file gives a shallow embedding of the Rust sources:
  * `src/src/library/graph.rs`      (Graph, find_way_local, find_way)
  * `src/src/library/lib.rs`        (Worker.serve_request, Server.serve, Worker.new/work)
  * `src/pathfinder/src/library/domain.rs` (PathRequest and its derivation operations)
and proves / refutes the frozen claims about them.

Machine integers (u64/u32/usize) are modelled as `Nat`; the i64 priorities of
the local Dijkstra queue are modelled as `Int`, mirroring the sign trick of the
source. Overflow is outside the range exercised by any claim.

`HashMap`s are modelled as association lists (`List (Nat × α)`) with a
first-match lookup; `HashSet`s as `List Nat` with membership; the
`priority_queue::PriorityQueue` as a list of entry/priority pairs whose `pop`
removes the entry with the greatest priority (the crate's documented
behaviour), taking the earliest-inserted entry among ties.  The crate treats
the queue as a map keyed on the item and updates the priority when the same
item is pushed twice; in both search loops every push is guarded by the
`visited` set, so no item is ever pushed twice and the list model coincides.
-/

/-- `type NodeIdx = usize` (graph.rs). -/
abbrev NodeIdx := Nat
/-- `type VertexIdx = usize` (graph.rs). -/
abbrev VertexIdx := Nat
/-- `type RegionIdx = u32` (graph.rs). -/
abbrev RegionIdx := Nat

/-- `NodeInfo(NodeIdx, RegionIdx)` (domain.rs). -/
abbrev NodeInfo := NodeIdx × RegionIdx

/-- `PathPoint` (domain.rs). -/
structure PathPoint where
  id : NodeIdx
  region_id : RegionIdx
  cord_x : Nat
  cord_y : Nat
  deriving DecidableEq, Repr

/-- `Vertex` (graph.rs): an undirected edge; `region_bits` is a `BitVec`
routing hint, modelled as a list of booleans indexed by region. -/
structure Vertex where
  a : NodeIdx
  b : NodeIdx
  weight : Nat
  id : VertexIdx
  region_bits : List Bool
  deriving DecidableEq, Repr

/-- `Node` (graph.rs). -/
structure Node where
  connections : List VertexIdx
  id : NodeIdx
  region : RegionIdx
  cord_x : Nat
  cord_y : Nat
  deriving DecidableEq, Repr

/-- `impl From<Node> for PathPoint` (domain.rs). -/
def PathPoint.ofNode (n : Node) : PathPoint :=
  ⟨n.id, n.region, n.cord_x, n.cord_y⟩

/-- `Graph` (graph.rs): per-region node and vertex maps. -/
structure Graph where
  nodes : List (NodeIdx × Node)
  vertices : List (VertexIdx × Vertex)
  region_idx : RegionIdx
  deriving DecidableEq, Repr

deriving instance DecidableEq for Except

/-- First-match association-list lookup, modelling `HashMap::get`. -/
def lookupA (k : Nat) : List (Nat × α) → Option α
  | [] => none
  | (k', v) :: rest => if k' = k then some v else lookupA k rest

/-- `GraphError` (src/src/library/graph.rs). -/
inductive GraphError where
  | StartNodeNotFound (node : NodeIdx) (region : RegionIdx)
  | VertexNotFound (vertex : VertexIdx) (region : RegionIdx)
  | Unreachable (vertex : NodeIdx) (region : RegionIdx)
  deriving DecidableEq, Repr

/-- `Continuation` (src/src/library/graph.rs). -/
inductive Continuation where
  | CRegionKnown (node : NodeIdx) (region : RegionIdx)
  | CRegionUnknown (node : NodeIdx)
  deriving DecidableEq, Repr

/-- `Continuation::get_node_idx` (graph.rs). -/
def Continuation.get_node_idx : Continuation → NodeIdx
  | .CRegionKnown idx _ => idx
  | .CRegionUnknown idx => idx

/-- `PathResult` (src/src/library/graph.rs). -/
inductive PathResult where
  | TargetReached (path : List PathPoint) (cost : Nat)
  | Continue (path : List PathPoint) (cost : Nat) (c : Continuation)
  deriving DecidableEq, Repr

/-- `Vertex::get_neighbour` (graph.rs).  The source panics when `x` is
neither endpoint; the embedding returns `v.a` there, and every theorem
about a search assumes (or exhibits) graphs whose nodes are endpoints of
all their connection vertices, so that case is never taken. -/
def Vertex.get_neighbour (v : Vertex) (x : NodeIdx) : NodeIdx :=
  if x = v.a then v.b else if x = v.b then v.a else v.a

/-- `region_bits[r]`: the BitVec indexing of the source, as a total lookup
(out-of-range reads, which would panic in Rust, yield `false`; no claim
exercises them). -/
def bitAt (bits : List Bool) (i : Nat) : Bool :=
  bits.getD i false

/-- Pop the entry with the greatest priority, earliest-inserted among ties
(`PriorityQueue::pop`). Returns the popped entry and the remaining queue. -/
def popMax [LinearOrder β] : List (α × β) → Option ((α × β) × List (α × β))
  | [] => none
  | e :: es =>
    match popMax es with
    | none => some (e, [])
    | some (m, rest) => if e.2 < m.2 then some (m, e :: rest) else some (e, es)

namespace Graph

/-- `Graph::get_node` (graph.rs). -/
def get_node (g : Graph) (idx : NodeIdx) : Option Node :=
  lookupA idx g.nodes

/-- Queue entries of `find_way_local`: the source stores
`((NodeIdx, Vec<PathPoint>), i64)` and re-looks the id up in the immutable
node map after popping; the embedding stores the node itself, which agrees
because every pushed id is a key of the map. -/
abbrev LEntry := (Node × List PathPoint) × Int

/-- Inner `for vertex_id in node.connections` loop of `find_way_local`
(graph.rs lines 134-145): state is (queue, visited). -/
def localScan (g : Graph) (node : Node) (path : List PathPoint) (cost : Int) :
    List VertexIdx → List LEntry × List NodeIdx →
    Except GraphError (List LEntry × List NodeIdx)
  | [], s => .ok s
  | vid :: vs, (q, vis) =>
    match lookupA vid g.vertices with
    | none => .error (.VertexNotFound vid g.region_idx)
    | some vx =>
      let next := vx.get_neighbour node.id
      if next ∈ vis then
        localScan g node path cost vs (q, vis)
      else
        match lookupA next g.nodes with
        | some next_node =>
          localScan g node path cost vs
            (q ++ [((next_node, path ++ [PathPoint.ofNode next_node]),
                    -(cost + (vx.weight : Int)))],
             next :: vis)
        | none => localScan g node path cost vs (q, vis)

/-- Outer `while queue.len() > 0` loop of `find_way_local` (graph.rs lines
127-146), structural on an explicit fuel; `none` means the fuel ran out
(shown impossible for the fuel chosen in `find_way_local`). -/
def localLoop (g : Graph) (target : NodeInfo) :
    Nat → List LEntry × List NodeIdx → Option (Except GraphError PathResult)
  | 0, _ => none
  | fuel + 1, (queue, vis) =>
    match popMax queue with
    | none => some (.error (.Unreachable target.1 target.2))
    | some (((node, path), prio), rest) =>
      let cost : Int := -prio
      if node.id = target.1 then some (.ok (.TargetReached path cost.toNat))
      else
        match localScan g node path cost node.connections (rest, vis) with
        | .error e => some (.error e)
        | .ok s => localLoop g target fuel s

/-- `Graph::find_way_local` (src/src/library/graph.rs lines 120-148).
The fuel `g.nodes.length + 2` dominates the iteration count: each push
beyond the first inserts a fresh key of the node map into `visited`. -/
def find_way_local (g : Graph) (source target : NodeInfo) :
    Option (Except GraphError PathResult) :=
  match lookupA source.1 g.nodes with
  | none => some (.error (.StartNodeNotFound source.1 g.region_idx))
  | some start_node =>
    localLoop g target (g.nodes.length + 2)
      ([((start_node, [PathPoint.ofNode start_node]), 0)], [])

/-- Queue entries of `find_way`: priorities are plain `u64` costs
(no negation in the source). -/
abbrev WEntry := (Node × List PathPoint) × Nat

/-- Inner `for vertex_id in node.connections` loop of `find_way` (graph.rs
lines 165-190): state is (queue, possibilities, visited).  Mirrored from the
source: the `Some` arm with a foreign region pushes `Continue(path.clone(),
cost, CRegionKnown(next.id, next.region))` (no path extension, no weight),
and the `None` arm pushes `Continue(path.clone(), cost + weight,
CRegionUnknown(node.id))` where `node` is the *current* node (line 181). -/
def wayScan (g : Graph) (targetRegion : RegionIdx) (node : Node)
    (path : List PathPoint) (cost : Nat) :
    List VertexIdx → List WEntry × List PathResult × List NodeIdx →
    Except GraphError (List WEntry × List PathResult × List NodeIdx)
  | [], s => .ok s
  | vid :: vs, (q, poss, vis) =>
    match lookupA vid g.vertices with
    | none => .error (.VertexNotFound vid g.region_idx)
    | some vx =>
      if bitAt vx.region_bits targetRegion then
        let next := vx.get_neighbour node.id
        if next ∈ vis then
          wayScan g targetRegion node path cost vs (q, poss, vis)
        else
          match lookupA next g.nodes with
          | some next_node =>
            if g.region_idx ≠ next_node.region then
              wayScan g targetRegion node path cost vs
                (q, poss ++ [.Continue path cost
                               (.CRegionKnown next_node.id next_node.region)],
                 next :: vis)
            else
              wayScan g targetRegion node path cost vs
                (q ++ [((next_node, path ++ [PathPoint.ofNode next_node]),
                        cost + vx.weight)],
                 poss, next :: vis)
          | none =>
            wayScan g targetRegion node path cost vs
              (q, poss ++ [.Continue path (cost + vx.weight)
                             (.CRegionUnknown node.id)],
               next :: vis)
      else wayScan g targetRegion node path cost vs (q, poss, vis)

/-- Outer loop of `find_way` (graph.rs lines 157-191).  A popped node whose
region differs from the graph's is emitted as a possibility unexpanded. -/
def wayLoop (g : Graph) (targetRegion : RegionIdx) :
    Nat → List WEntry × List PathResult × List NodeIdx →
    Option (Except GraphError (List PathResult))
  | 0, _ => none
  | fuel + 1, (queue, poss, vis) =>
    match popMax queue with
    | none => some (.ok poss)
    | some (((node, path), cost), rest) =>
      if g.region_idx ≠ node.region then
        wayLoop g targetRegion fuel
          (rest, poss ++ [.Continue path cost (.CRegionKnown node.id node.region)], vis)
      else
        match wayScan g targetRegion node path cost node.connections (rest, poss, vis) with
        | .error e => some (.error e)
        | .ok s => wayLoop g targetRegion fuel s

/-- `Graph::find_way` (src/src/library/graph.rs lines 150-193).  The fuel
`2 * g.vertices.length + 2` dominates the iteration count: every push beyond
the first inserts a fresh vertex endpoint into `visited`. -/
def find_way (g : Graph) (source target : NodeInfo) :
    Option (Except GraphError (List PathResult)) :=
  match lookupA source.1 g.nodes with
  | none => some (.error (.StartNodeNotFound source.1 g.region_idx))
  | some start_node =>
    wayLoop g target.2 (2 * g.vertices.length + 2)
      ([((start_node, [PathPoint.ofNode start_node]), 0)], [], [])

end Graph

namespace PFDomain

/-- `PathRequest` as defined in `src/pathfinder/src/library/domain.rs`
(no `last` field; the frontier node is recovered from the path). -/
structure PathRequest where
  request_id : Nat
  source : NodeInfo
  target : NodeInfo
  path : List PathPoint
  cost : Nat
  visited_regions : List RegionIdx
  deriving DecidableEq, Repr

/-- `PathRequest::update_without_region` (pathfinder domain.rs lines 76-90). -/
def PathRequest.update_without_region (r : PathRequest)
    (path : List PathPoint) (cost : Nat) : PathRequest :=
  { r with path := r.path ++ path, cost := r.cost + cost }

/-- `PathRequest::update` (pathfinder domain.rs lines 91-108): also pushes
`new_region_idx` onto `visited_regions`. -/
def PathRequest.update (r : PathRequest) (path : List PathPoint) (cost : Nat)
    (new_region_idx : RegionIdx) : PathRequest :=
  { r with path := r.path ++ path, cost := r.cost + cost,
           visited_regions := r.visited_regions ++ [new_region_idx] }

/-- `PathRequest::get_last_node` (pathfinder domain.rs lines 110-117). -/
def PathRequest.get_last_node (r : PathRequest) : Option NodeInfo :=
  match r.path.getLast? with
  | none => none
  | some p => some (p.id, p.region_id)

end PFDomain

/-- Modelled from the spec: the `domain.rs` of the main crate (`src/src`) is
not in the repository; its `PathRequest` carries, per spec section 3, a
`last` frontier node in addition to the fields of the pathfinder variant. -/
structure PathRequest where
  request_id : Nat
  source : NodeInfo
  target : NodeInfo
  last : NodeIdx
  path : List PathPoint
  cost : Nat
  visited_regions : List RegionIdx
  deriving DecidableEq, Repr

/-- Modelled from the spec: `update_without_region(path_suffix, new_last_node,
extra_cost)` of the missing main-crate `domain.rs` — append the suffix path,
update `last`, add `extra_cost` to `cost`, leave `visited_regions` unchanged
(spec section 4.4; append/add semantics as in the cited pathfinder
`domain.rs`). -/
def PathRequest.update_without_region (r : PathRequest) (path : List PathPoint)
    (new_last : NodeIdx) (cost : Nat) : PathRequest :=
  { r with path := r.path ++ path, last := new_last, cost := r.cost + cost }

/-- Modelled from the spec: `update(path_suffix, new_last_node, extra_cost,
new_region)` of the missing main-crate `domain.rs` — same as
`update_without_region` and additionally insert `new_region` into
`visited_regions` (spec section 4.4; push semantics as in the cited
pathfinder `domain.rs`). -/
def PathRequest.update (r : PathRequest) (path : List PathPoint)
    (new_last : NodeIdx) (cost : Nat) (new_region : RegionIdx) : PathRequest :=
  { r with path := r.path ++ path, last := new_last, cost := r.cost + cost,
           visited_regions := r.visited_regions ++ [new_region] }

/-- The directory operations the worker consults while serving a request
(`RedisConnector::get_region` and `::get_server_id`); `none` models a
directory error, which the worker propagates. -/
structure Directory where
  region_of : NodeIdx → Option RegionIdx
  server_of : RegionIdx → Option Nat

/-- Errors a call of `Worker::serve_request` can end in. -/
inductive ServeError where
  | NotServedRegion
  | GErr (e : GraphError)
  | DirectoryError
  | SearchFuel
  deriving DecidableEq, Repr

/-- Observable outcome of a successful `Worker::serve_request`: either one
reply to the submitter (further possibilities dropped), or a list of
forwarded requests in send order. -/
inductive ServeOutcome where
  | Replied (r : PathRequest)
  | Forwarded (sends : List (Nat × PathRequest))
  deriving DecidableEq, Repr

/-- The `start_region` scan of `Worker::serve_request` (src/src/library/lib.rs
lines 163-168): iterate over the held graphs, remembering the last region
whose graph contains `last` as a node. -/
def findStartRegion (graphs : List (RegionIdx × Graph)) (last : NodeIdx) :
    Option RegionIdx :=
  graphs.foldl
    (fun acc p => if (p.2.get_node last).isSome then some p.1 else acc) none

/-- The possibility-handling loop of `Worker::serve_request`
(src/src/library/lib.rs lines 184-207) followed by the send loop (208-210):
`TargetReached` replies at once and drops the queued sends; `Continue`
resolves the next region (directly or from the directory), skips it when
already visited, and otherwise queues a forward built with
`request.update(path, continuation.get_node_idx(), cost, next_region)`. -/
def processResults (dir : Directory) (request : PathRequest) :
    List PathResult → List (Nat × PathRequest) → Except ServeError ServeOutcome
  | [], to_send => .ok (.Forwarded to_send)
  | .TargetReached path cost :: _, _ =>
    .ok (.Replied (request.update_without_region path request.target.1 cost))
  | .Continue path cost continuation :: rest, to_send =>
    match (match continuation with
           | .CRegionKnown _ region => some region
           | .CRegionUnknown node_idx => dir.region_of node_idx) with
    | none => .error .DirectoryError
    | some next_region =>
      if next_region ∈ request.visited_regions then
        processResults dir request rest to_send
      else
        match dir.server_of next_region with
        | none => .error .DirectoryError
        | some server_id =>
          processResults dir request rest
            (to_send ++
             [(server_id,
               request.update path continuation.get_node_idx cost next_region)])

/-- `Worker::serve_request` (src/src/library/lib.rs lines 162-212). -/
def serve_request (graphs : List (RegionIdx × Graph)) (dir : Directory)
    (request : PathRequest) : Except ServeError ServeOutcome :=
  match findStartRegion graphs request.last with
  | none => .error .NotServedRegion
  | some start_region =>
    match lookupA start_region graphs with
    | none => .error (.GErr (.StartNodeNotFound request.last start_region))
    | some graph =>
      match (if request.target.2 = start_region then
               (graph.find_way_local (request.last, start_region)
                  request.target).map (·.map (fun r => [r]))
             else graph.find_way (request.last, start_region) request.target) with
      | none => .error .SearchFuel
      | some (.error e) => .error (.GErr e)
      | some (.ok path_results) => processResults dir request path_results []

/-- `ConnectionError` (pathfinder node_connector.rs; payloads elided). -/
inductive ConnectionError where
  | DeserializationError
  | TargetDoesNotExist (id : Nat)
  | ProtocolError
  | NoRequest
  | RedisDeserializationError
  deriving DecidableEq, Repr

/-- What one iteration of the dispatcher loop does after the blocking points. -/
inductive DispatchOutcome where
  | Dispatched (worker : Nat) (request : PathRequest)
  | Crashed
  | Continued
  deriving DecidableEq, Repr

/-- One iteration of `Server::serve` (src/src/library/lib.rs lines 283-311):
take the first idle worker id from the free channel (`none` = the iteration
blocks), then pull from the listener; on success dispatch to that worker, on
`ProtocolError` crash the process, on any other error send the worker id back
onto the free channel and continue. -/
def serveStep (free : List Nat)
    (listen : Except ConnectionError PathRequest) :
    Option (List Nat × DispatchOutcome) :=
  match free with
  | [] => none
  | worker_id :: rest =>
    match listen with
    | .ok request => some (rest, .Dispatched worker_id request)
    | .error e =>
      match e with
      | .ProtocolError => some (rest, .Crashed)
      | _ => some (rest ++ [worker_id], .Continued)

/-- `Worker::new` (src/src/library/lib.rs line 150): the constructor sends the
worker's id on the free channel once. -/
def workerNewCredits (id : Nat) : List Nat := [id]

/-- `Worker::work` (src/src/library/lib.rs line 215): sends the worker's id on
the free channel once more before entering the receive loop. -/
def workerWorkStartCredits (id : Nat) : List Nat := [id]

/-- Free-channel content after `Server::new` has created workers
`0..worker_count` and each spawned `work()` task has reached its receive,
before any request is dispatched: every worker has contributed its
`Worker::new` credit and its `Worker::work` pre-loop credit. -/
def startupFreeQueue (worker_count : Nat) : List Nat :=
  (List.range worker_count).flatMap
    (fun i => workerNewCredits i ++ workerWorkStartCredits i)

/-- The dispatcher consumes one idle credit from the free channel per accepted
request (`Server::serve`); `none` when it would block. -/
def acceptRequests : Nat → List Nat → Option (List Nat)
  | 0, free => some free
  | k + 1, free =>
    match free with
    | [] => none
    | _ :: rest => acceptRequests k rest

/-- Weight of some edge of `vs` joining `x` and `y` (first match), used to
state the spec's "sum of weights of edges connecting consecutive nodes". -/
def connectingWeight (vs : List (VertexIdx × Vertex)) (x y : NodeIdx) :
    Option Nat :=
  match vs with
  | [] => none
  | (_, v) :: rest =>
    if (v.a = x ∧ v.b = y) ∨ (v.a = y ∧ v.b = x) then some v.weight
    else connectingWeight rest x y

/-- Sum of the weights of edges connecting consecutive points of a path;
`none` when two consecutive points are not joined by any edge of `vs`. -/
def chainWeight (vs : List (VertexIdx × Vertex)) : List PathPoint → Option Nat
  | [] => some 0
  | [_] => some 0
  | p :: q :: rest =>
    match connectingWeight vs p.id q.id, chainWeight vs (q :: rest) with
    | some w, some c => some (w + c)
    | _, _ => none

/-- Cost carried by a possibility. -/
def possibilityCost : PathResult → Nat
  | .TargetReached _ c => c
  | .Continue _ c _ => c

/- Concrete instances used to evaluate the searches and the worker. -/

/-- Triangle region: edges 1-3 (weight 10), 1-2 (weight 1), 2-3 (weight 1);
the shortest 1→3 walk costs 2 via node 2. -/
def gTriangle : Graph :=
  ⟨[(1, ⟨[1, 2], 1, 0, 0, 0⟩), (2, ⟨[2, 3], 2, 0, 0, 0⟩),
    (3, ⟨[1, 3], 3, 0, 0, 0⟩)],
   [(1, ⟨1, 3, 10, 1, []⟩), (2, ⟨1, 2, 1, 2, []⟩), (3, ⟨2, 3, 1, 3, []⟩)], 0⟩

/-- Region 0 with two boundary exits toward region 1: node 2 is held locally
but belongs to region 1 (crossing edge weight 3), node 4 is remote (crossing
edge weight 5). -/
def gBoundary : Graph :=
  ⟨[(1, ⟨[1, 2], 1, 0, 0, 0⟩), (2, ⟨[1], 2, 1, 0, 0⟩)],
   [(1, ⟨1, 2, 3, 1, [false, true]⟩), (2, ⟨1, 4, 5, 2, [false, true]⟩)], 0⟩

/-- Region 0 with two remote exits toward region 1 at depth two: the cheap
exit (total 2) hangs off the cheap branch, the dear exit (total 6) off the
dear branch. -/
def gTwoExits : Graph :=
  ⟨[(1, ⟨[1, 2], 1, 0, 0, 0⟩), (2, ⟨[1, 3], 2, 0, 0, 0⟩),
    (3, ⟨[2, 4], 3, 0, 0, 0⟩)],
   [(1, ⟨1, 2, 1, 1, [false, true]⟩), (2, ⟨1, 3, 5, 2, [false, true]⟩),
    (3, ⟨2, 10, 1, 3, [false, true]⟩), (4, ⟨3, 11, 1, 4, [false, true]⟩)], 0⟩

/-- Region 0 whose single node has no edge carrying the bit of region 1. -/
def gNoExit : Graph :=
  ⟨[(1, ⟨[1], 1, 0, 0, 0⟩)], [(1, ⟨1, 2, 1, 1, [false, false]⟩)], 0⟩

/-- Directory for the demos: node 1 lives in region 0; region 0 is owned by
server 7 and region 1 by server 8. -/
def dirDemo : Directory :=
  ⟨fun n => if n = 1 then some 0 else none,
   fun r => if r = 0 then some 7 else if r = 1 then some 8 else none⟩

/-- A fresh client request from node (1,0) to node (9,1). -/
def reqDemo : PathRequest := ⟨42, (1, 0), (9, 1), 1, [], 0, []⟩

/-- What `serve_request` forwards for `reqDemo` out of the
`CRegionKnown 2 1` possibility of `gBoundary`. -/
def fwdKnown : PathRequest := ⟨42, (1, 0), (9, 1), 2, [⟨1, 0, 0, 0⟩], 0, [1]⟩

/-- What `serve_request` forwards for `reqDemo` out of the
`CRegionUnknown 1` possibility of `gBoundary`. -/
def fwdUnknown : PathRequest := ⟨42, (1, 0), (9, 1), 1, [⟨1, 0, 0, 0⟩], 5, [0]⟩

/-- A request served in `gNoExit`. -/
def reqNoExit : PathRequest := ⟨5, (1, 0), (9, 1), 1, [], 0, []⟩

/-- `resolvesTo vs vid nid`: vertex id `vid` resolves in the vertex map `vs`
and node id `nid` is one of the endpoints of the found vertex (so
`get_neighbour` does not panic). -/
def resolvesTo (vs : List (VertexIdx × Vertex)) (vid : VertexIdx)
    (nid : NodeIdx) : Prop :=
  match lookupA vid vs with
  | some vx => nid = vx.a ∨ nid = vx.b
  | none => False

instance (vs : List (VertexIdx × Vertex)) (vid : VertexIdx) (nid : NodeIdx) :
    Decidable (resolvesTo vs vid nid) := by
  unfold resolvesTo
  cases lookupA vid vs with
  | none => exact isFalse fun h => h
  | some vx => exact inferInstanceAs (Decidable (_ ∨ _))

/-- Well-formedness of a region graph as loaded: each node is stored under
its own id and every connection of a stored node resolves to a vertex having
that node as an endpoint ("all referenced vertices resolve"). -/
def Graph.WF (g : Graph) : Prop :=
  (∀ p ∈ g.nodes, p.2.id = p.1) ∧
  (∀ p ∈ g.nodes, ∀ vid ∈ p.2.connections, resolvesTo g.vertices vid p.2.id)

/-- Reachability inside one region object: the moves `find_way_local` can
make — follow a connection of the current node to a vertex of the map and
step to the neighbouring endpoint when that node is also held in the map. -/
instance (g : Graph) : Decidable g.WF := by
  unfold Graph.WF
  exact inferInstance

inductive Reaches (g : Graph) : Node → Node → Prop where
  | refl (n : Node) : Reaches g n n
  | step {a b c : Node} {vid : VertexIdx} {vx : Vertex} :
      Reaches g a b → vid ∈ b.connections →
      lookupA vid g.vertices = some vx →
      lookupA (vx.get_neighbour b.id) g.nodes = some c →
      Reaches g a c

/-! Theorems settling the claims. -/

/-- C2: refuted on the code. `find_way_local` inserts nodes into `visited`
when they are first discovered (pushed), not when they are expanded, so a
node keeps the cost of whichever path discovered it first.  On `gTriangle`
the code answers the 1→3 query with the direct edge of weight 10 and never
relaxes it through node 2, although the walk 1-2-3 (whose existence and
total weight 2 the second conjunct certifies) is cheaper, so the returned
cost is not the true Dijkstra shortest-path cost. -/
theorem find_way_local_not_shortest_eval :
    gTriangle.find_way_local (1, 0) (3, 0) =
      some (.ok (.TargetReached [⟨1, 0, 0, 0⟩, ⟨3, 0, 0, 0⟩] 10)) ∧
    chainWeight gTriangle.vertices
      [⟨1, 0, 0, 0⟩, ⟨2, 0, 0, 0⟩, ⟨3, 0, 0, 0⟩] = some 2 ∧
    (2 : Nat) < 10 := by
  decide

/-- C3: refuted on the code. On `gBoundary`, the locally-held boundary node 2
of region 1 is emitted as `Continue` with the path NOT extended by node 2 and
the crossing weight 3 NOT added (cost 0), and the remote boundary neighbour 4
is emitted as `CRegionUnknown 1` carrying the id of the *current* node 1
instead of the remote neighbour's id 4 (graph.rs line 181 passes `node.id`
where `next` was intended). -/
theorem find_way_boundary_continuation_eval :
    gBoundary.find_way (1, 0) (9, 1) =
      some (.ok
        [.Continue [⟨1, 0, 0, 0⟩] 0 (.CRegionKnown 2 1),
         .Continue [⟨1, 0, 0, 0⟩] 5 (.CRegionUnknown 1)]) := by
  decide

/-- C4: refuted on the code. `find_way` pushes plain u64 costs as priorities
without the sign flip used by `find_way_local`, and `PriorityQueue::pop`
removes the GREATEST priority, so the expansion is worst-first; on
`gTwoExits` the possibilities come out with costs [6, 2] — not ascending. -/
theorem find_way_possibilities_order_eval :
    gTwoExits.find_way (1, 0) (9, 1) =
      some (.ok
        [.Continue [⟨1, 0, 0, 0⟩, ⟨3, 0, 0, 0⟩] 6 (.CRegionUnknown 3),
         .Continue [⟨1, 0, 0, 0⟩, ⟨2, 0, 0, 0⟩] 2 (.CRegionUnknown 2)]) ∧
    ¬ List.Sorted (· ≤ ·)
        (List.map possibilityCost
          [.Continue [⟨1, 0, 0, 0⟩, ⟨3, 0, 0, 0⟩] 6 (.CRegionUnknown 3),
           .Continue [⟨1, 0, 0, 0⟩, ⟨2, 0, 0, 0⟩] 2 (.CRegionUnknown 2)]) := by
  constructor
  · decide
  · simp [possibilityCost, List.Sorted]

/-- C1: refuted on the code. Serving `reqDemo` in `gBoundary` forwards
`fwdUnknown`, whose cost 5 includes the crossing weight while its path (just
the single point 1) has edge-weight sum 0, and `fwdKnown`, whose `last` is
the boundary node 2 while the crossing edge's weight 3 (third conjunct) is
NOT included in its cost 0.  So a forwarded PathRequest's cost differs from
the sum of the weights of the edges connecting consecutive nodes of its
path. -/
theorem serve_request_cost_mismatch_eval :
    serve_request [(0, gBoundary)] dirDemo reqDemo =
      .ok (.Forwarded [(8, fwdKnown), (7, fwdUnknown)]) ∧
    chainWeight gBoundary.vertices fwdUnknown.path = some 0 ∧
    fwdUnknown.cost = 5 ∧
    chainWeight gBoundary.vertices fwdKnown.path = some 0 ∧
    fwdKnown.cost = 0 ∧ fwdKnown.last = 2 ∧
    connectingWeight gBoundary.vertices 1 2 = some 3 := by
  decide

/-- C6: refuted on the code. `Worker::new` sends the worker's id on the free
channel and `Worker::work` sends it AGAIN before entering its receive loop,
so a single worker starts with two idle credits and the dispatcher accepts
two requests while `worker_count = 1`. -/
theorem worker_double_idle_credit_eval :
    startupFreeQueue 1 = [0, 0] ∧
    acceptRequests 2 (startupFreeQueue 1) = some [] ∧
    (1 : Nat) < 2 := by
  decide

/-- C7: in the dispatcher loop, a listener error other than `ProtocolError`
puts the taken worker id back on the free channel and continues, while
`ProtocolError` crashes the process. -/
theorem dispatcher_restores_idle_credit (w : Nat) (rest : List Nat)
    (err : ConnectionError) (h : err ≠ .ProtocolError) :
    serveStep (w :: rest) (.error err) = some (rest ++ [w], .Continued) ∧
    serveStep (w :: rest) (.error .ProtocolError) = some (rest, .Crashed) := by
  refine ⟨?_, rfl⟩
  cases err with
  | ProtocolError => exact absurd rfl h
  | _ => rfl

/-- Witness for C7 at a concrete input. -/
theorem dispatcher_restores_idle_credit_witness :
    serveStep (3 :: [5]) (.error .NoRequest) = some ([5] ++ [3], .Continued) ∧
    serveStep (3 :: [5]) (.error .ProtocolError) = some ([5], .Crashed) :=
  dispatcher_restores_idle_credit 3 [5] .NoRequest (by decide)

/-- C9: the derivation operations of the pathfinder `PathRequest` keep
`request_id`, `source` and `target`, append the suffix to `path`, add the
extra cost to `cost`; `update_without_region` leaves `visited_regions`
unchanged while `update` additionally inserts the new region. -/
theorem pathrequest_update_frame (r : PFDomain.PathRequest)
    (path : List PathPoint) (cost : Nat) (region : RegionIdx) :
    (r.update_without_region path cost).request_id = r.request_id ∧
    (r.update_without_region path cost).source = r.source ∧
    (r.update_without_region path cost).target = r.target ∧
    (r.update_without_region path cost).path = r.path ++ path ∧
    (r.update_without_region path cost).cost = r.cost + cost ∧
    (r.update_without_region path cost).visited_regions = r.visited_regions ∧
    (r.update path cost region).request_id = r.request_id ∧
    (r.update path cost region).source = r.source ∧
    (r.update path cost region).target = r.target ∧
    (r.update path cost region).path = r.path ++ path ∧
    (r.update path cost region).cost = r.cost + cost ∧
    (r.update path cost region).visited_regions =
      r.visited_regions ++ [region] :=
  ⟨rfl, rfl, rfl, rfl, rfl, rfl, rfl, rfl, rfl, rfl, rfl, rfl⟩

/-- When none of the vertices in `conns` resolves to an edge carrying the
target region's bit, the inner scan of `find_way` leaves the state alone. -/
theorem wayScan_no_bit (g : Graph) (tr : RegionIdx) (node : Node)
    (path : List PathPoint) (cost : Nat) :
    ∀ (conns : List VertexIdx)
      (s : List Graph.WEntry × List PathResult × List NodeIdx),
      (∀ vid ∈ conns, ∃ vx, lookupA vid g.vertices = some vx ∧
          bitAt vx.region_bits tr = false) →
      Graph.wayScan g tr node path cost conns s = .ok s
  | [], _, _ => rfl
  | vid :: vs, (q, poss, vis), h => by
    obtain ⟨vx, hvx, hbit⟩ := h vid (List.mem_cons_self _ _)
    have ih := wayScan_no_bit g tr node path cost vs (q, poss, vis)
      (fun v hv => h v (List.mem_cons_of_mem _ hv))
    simp [Graph.wayScan, hvx, hbit, ih]

/-- An exhausted queue makes the outer loop of `find_way` return the
possibilities gathered so far. -/
theorem wayLoop_empty (g : Graph) (tr : RegionIdx) (poss : List PathResult)
    (vis : List NodeIdx) (fuel : Nat) :
    Graph.wayLoop g tr (fuel + 1) ([], poss, vis) = some (.ok poss) := by
  simp [Graph.wayLoop, popMax]

/-- C10: when the start node resolves, sits in this graph's region, and none
of its edges carries the target region's bit (so the search finds no boundary
exit), `find_way` returns `Ok` with an empty possibility list rather than an
error, and the worker consequently queues no forwards and sends no reply —
the request is dropped silently. -/
theorem find_way_no_exit_silent_drop
    (graphs : List (RegionIdx × Graph)) (dir : Directory) (req : PathRequest)
    (sr : RegionIdx) (g : Graph) (start : Node)
    (hsr : findStartRegion graphs req.last = some sr)
    (hg : lookupA sr graphs = some g)
    (hdiff : req.target.2 ≠ sr)
    (hstart : lookupA req.last g.nodes = some start)
    (hreg : start.region = g.region_idx)
    (hconn : ∀ vid ∈ start.connections, ∃ vx,
        lookupA vid g.vertices = some vx ∧
        bitAt vx.region_bits req.target.2 = false) :
    g.find_way (req.last, sr) req.target = some (.ok []) ∧
    serve_request graphs dir req = .ok (.Forwarded []) := by
  have hscan := wayScan_no_bit g req.target.2 start [PathPoint.ofNode start] 0
    start.connections ([], [], []) hconn
  have hway : g.find_way (req.last, sr) req.target = some (.ok []) := by
    simp only [Graph.find_way, hstart]
    show Graph.wayLoop g req.target.2 (2 * g.vertices.length + 1 + 1)
      ([((start, [PathPoint.ofNode start]), 0)], [], []) = some (.ok [])
    rw [Graph.wayLoop]
    simp only [popMax]
    rw [if_neg (by simp [hreg]), hscan]
    exact wayLoop_empty g req.target.2 [] [] (2 * g.vertices.length)
  refine ⟨hway, ?_⟩
  simp only [serve_request, hsr, hg, if_neg hdiff, hway]
  rfl

/-- Witness for C10 at a concrete input: `gNoExit` has no edge with region
1's bit set, so the request from (1,0) to (9,1) is silently dropped. -/
theorem find_way_no_exit_silent_drop_witness :
    gNoExit.find_way (1, 0) (9, 1) = some (.ok []) ∧
    serve_request [(0, gNoExit)] dirDemo reqNoExit = .ok (.Forwarded []) :=
  find_way_no_exit_silent_drop [(0, gNoExit)] dirDemo reqNoExit 0 gNoExit
    ⟨[1], 1, 0, 0, 0⟩ (by decide) (by decide) (by decide) (by decide) rfl
    (by
      intro vid hvid
      simp only [List.mem_singleton] at hvid
      subst hvid
      exact ⟨⟨1, 2, 1, 1, [false, false]⟩, rfl, rfl⟩)

/-- Every send queued by the possibility loop of `serve_request` was either
queued before or is a forward to a region absent from the incoming request's
`visited_regions`, derived through `PathRequest.update`. -/
theorem processResults_forwarded (dir : Directory) (req : PathRequest) :
    ∀ (results : List PathResult) (acc sends : List (Nat × PathRequest)),
      processResults dir req results acc = .ok (.Forwarded sends) →
      ∀ s ∈ sends, s ∈ acc ∨ ∃ path lst cost reg,
        reg ∉ req.visited_regions ∧ s.2 = req.update path lst cost reg := by
  intro results
  induction results with
  | nil =>
    intro acc sends h s hs
    simp only [processResults, Except.ok.injEq, ServeOutcome.Forwarded.injEq] at h
    exact Or.inl (h ▸ hs)
  | cons r rest ih =>
    intro acc sends h s hs
    cases r with
    | TargetReached p c => simp [processResults] at h
    | Continue p c cont =>
      simp only [processResults] at h
      split at h
      · exact Except.noConfusion h
      · rename_i nr hnr
        split at h
        · exact ih acc sends h s hs
        · rename_i hnotmem
          split at h
          · exact Except.noConfusion h
          · rename_i sid hsid
            rcases ih _ sends h s hs with hacc | hnew
            · rcases List.mem_append.mp hacc with hacc | hone
              · exact Or.inl hacc
              · simp only [List.mem_singleton] at hone
                exact Or.inr ⟨p, cont.get_node_idx, c, nr, hnotmem, by rw [hone]⟩
            · exact Or.inr hnew

/-- C5: every request forwarded by `serve_request` carries
`visited_regions = incoming visited_regions ++ [next_region]` for a region
not already recorded there; in particular, when the incoming set has no
duplicates, neither has the forwarded one, and no forward re-enters a
recorded region. -/
theorem forwarded_visited_regions_fresh
    (graphs : List (RegionIdx × Graph)) (dir : Directory) (req : PathRequest)
    (sends : List (Nat × PathRequest))
    (h : serve_request graphs dir req = .ok (.Forwarded sends))
    (hnd : req.visited_regions.Nodup) :
    ∀ s ∈ sends, ∃ reg, reg ∉ req.visited_regions ∧
      s.2.visited_regions = req.visited_regions ++ [reg] ∧
      s.2.visited_regions.Nodup := by
  intro s hs
  simp only [serve_request] at h
  split at h
  · exact Except.noConfusion h
  · split at h
    · exact Except.noConfusion h
    · split at h
      · exact Except.noConfusion h
      · exact Except.noConfusion h
      · rcases processResults_forwarded dir req _ [] sends h s hs with h0 | hnew
        · exact absurd h0 (List.not_mem_nil s)
        · obtain ⟨p, lst, c, reg, hreg, hseq⟩ := hnew
          refine ⟨reg, hreg, ?_, ?_⟩
          · rw [hseq]; rfl
          · rw [hseq]
            show (req.visited_regions ++ [reg]).Nodup
            simp [List.nodup_append, hnd, hreg]

/-- Witness for C5 at a concrete input: the forward of `reqDemo` to region 1
records exactly region 1 on top of the empty incoming set. -/
theorem forwarded_visited_regions_fresh_witness :
    ∃ reg, reg ∉ reqDemo.visited_regions ∧
      fwdKnown.visited_regions = reqDemo.visited_regions ++ [reg] ∧
      fwdKnown.visited_regions.Nodup :=
  forwarded_visited_regions_fresh [(0, gBoundary)] dirDemo reqDemo
    [(8, fwdKnown), (7, fwdUnknown)] (by decide) (by decide)
    (8, fwdKnown) (by simp)

/-- A successful lookup returns a pair of the list. -/
theorem lookupA_mem {α : Type} : ∀ {l : List (Nat × α)} {k : Nat} {v : α},
    lookupA k l = some v → (k, v) ∈ l := by
  intro l
  induction l with
  | nil => intro k v h; exact Option.noConfusion h
  | cons p rest ih =>
    intro k v h
    obtain ⟨k', v'⟩ := p
    simp only [lookupA] at h
    split at h
    · rename_i heq
      cases h
      subst heq
      exact List.mem_cons_self _ _
    · exact List.mem_cons_of_mem _ (ih h)

/-- A successful lookup's key occurs among the keys. -/
theorem lookupA_key_mem {α : Type} {l : List (Nat × α)} {k : Nat} {v : α}
    (h : lookupA k l = some v) : k ∈ l.map Prod.fst :=
  List.mem_map.mpr ⟨(k, v), lookupA_mem h, rfl⟩

/-- `popMax` yields `none` only on the empty queue. -/
theorem popMax_none [LinearOrder β] :
    ∀ {l : List (α × β)}, popMax l = none → l = [] := by
  intro l h
  cases l with
  | nil => rfl
  | cons e es =>
    cases hx : popMax es with
    | none => simp [popMax, hx] at h
    | some m => obtain ⟨m, mrest⟩ := m; simp only [popMax, hx] at h; split at h <;> simp at h

/-- The popped entry belongs to the queue. -/
theorem popMax_mem [LinearOrder β] : ∀ {l : List (α × β)} {e rest},
    popMax l = some (e, rest) → e ∈ l := by
  intro l
  induction l with
  | nil => intro e rest h; exact Option.noConfusion h
  | cons x xs ih =>
    intro e rest h
    cases hx : popMax xs with
    | none =>
      simp only [popMax, hx, Option.some.injEq, Prod.mk.injEq] at h
      exact h.1 ▸ List.mem_cons_self x xs
    | some m =>
      obtain ⟨m, mrest⟩ := m
      simp only [popMax, hx] at h
      split at h
      · simp only [Option.some.injEq, Prod.mk.injEq] at h
        exact List.mem_cons_of_mem _ (h.1 ▸ ih hx)
      · simp only [Option.some.injEq, Prod.mk.injEq] at h
        exact h.1 ▸ List.mem_cons_self x xs

/-- Every entry of the remainder of a pop was in the queue. -/
theorem popMax_rest_sub [LinearOrder β] : ∀ {l : List (α × β)} {e rest},
    popMax l = some (e, rest) → ∀ x ∈ rest, x ∈ l := by
  intro l
  induction l with
  | nil => intro e rest h; exact Option.noConfusion h
  | cons x xs ih =>
    intro e rest h y hy
    cases hx : popMax xs with
    | none =>
      simp only [popMax, hx, Option.some.injEq, Prod.mk.injEq] at h
      rw [← h.2] at hy
      exact absurd hy (List.not_mem_nil y)
    | some m =>
      obtain ⟨m, mrest⟩ := m
      simp only [popMax, hx] at h
      split at h
      · simp only [Option.some.injEq, Prod.mk.injEq] at h
        rw [← h.2] at hy
        rcases List.mem_cons.mp hy with rfl | hy'
        · exact List.mem_cons_self _ _
        · exact List.mem_cons_of_mem _ (ih hx y hy')
      · simp only [Option.some.injEq, Prod.mk.injEq] at h
        exact List.mem_cons_of_mem _ (h.2 ▸ hy)

/-- Every entry of the queue is the popped entry or in the remainder. -/
theorem popMax_cover [LinearOrder β] : ∀ {l : List (α × β)} {e rest},
    popMax l = some (e, rest) → ∀ x ∈ l, x = e ∨ x ∈ rest := by
  intro l
  induction l with
  | nil => intro e rest h; exact Option.noConfusion h
  | cons x xs ih =>
    intro e rest h y hy
    cases hx : popMax xs with
    | none =>
      have hxs := popMax_none hx
      subst hxs
      simp only [popMax, Option.some.injEq, Prod.mk.injEq] at h
      rcases List.mem_cons.mp hy with rfl | hy'
      · exact Or.inl h.1
      · exact absurd hy' (List.not_mem_nil y)
    | some m =>
      obtain ⟨m, mrest⟩ := m
      simp only [popMax, hx] at h
      split at h
      · simp only [Option.some.injEq, Prod.mk.injEq] at h
        rcases List.mem_cons.mp hy with rfl | hy'
        · exact Or.inr (h.2 ▸ List.mem_cons_self _ _)
        · rcases ih hx y hy' with rfl | hmr
          · exact Or.inl h.1
          · exact Or.inr (h.2 ▸ List.mem_cons_of_mem _ hmr)
      · simp only [Option.some.injEq, Prod.mk.injEq] at h
        rcases List.mem_cons.mp hy with rfl | hy'
        · exact Or.inl h.1
        · exact Or.inr (h.2 ▸ hy')

/-- Popping shortens the queue by exactly one. -/
theorem popMax_length [LinearOrder β] : ∀ {l : List (α × β)} {e rest},
    popMax l = some (e, rest) → rest.length + 1 = l.length := by
  intro l
  induction l with
  | nil => intro e rest h; exact Option.noConfusion h
  | cons x xs ih =>
    intro e rest h
    cases hx : popMax xs with
    | none =>
      have hxs := popMax_none hx
      subst hxs
      simp only [popMax, Option.some.injEq, Prod.mk.injEq] at h
      rw [← h.2]
      rfl
    | some m =>
      obtain ⟨m, mrest⟩ := m
      simp only [popMax, hx] at h
      split at h
      · simp only [Option.some.injEq, Prod.mk.injEq] at h
        rw [← h.2]
        simpa using ih hx
      · simp only [Option.some.injEq, Prod.mk.injEq] at h
        rw [← h.2]
        rfl

/-- The inner scan only appends to the queue. -/
theorem localScan_queue_mono (g : Graph) (node : Node) (path : List PathPoint)
    (cost : Int) :
    ∀ (conns : List VertexIdx) (q : List Graph.LEntry) (vis : List NodeIdx)
      (q' : List Graph.LEntry) (vis' : List NodeIdx),
      Graph.localScan g node path cost conns (q, vis) = .ok (q', vis') →
      ∀ e ∈ q, e ∈ q' := by
  intro conns
  induction conns with
  | nil =>
    intro q vis q' vis' h e he
    simp only [Graph.localScan, Except.ok.injEq, Prod.mk.injEq] at h
    exact h.1 ▸ he
  | cons vid vs ih =>
    intro q vis q' vis' h e he
    simp only [Graph.localScan] at h
    split at h
    · exact Except.noConfusion h
    · split at h
      · exact ih q vis q' vis' h e he
      · split at h
        · exact ih _ _ q' vis' h e (List.mem_append_left _ he)
        · exact ih q vis q' vis' h e he

/-- The inner scan only grows the visited set. -/
theorem localScan_vis_mono (g : Graph) (node : Node) (path : List PathPoint)
    (cost : Int) :
    ∀ (conns : List VertexIdx) (q : List Graph.LEntry) (vis : List NodeIdx)
      (q' : List Graph.LEntry) (vis' : List NodeIdx),
      Graph.localScan g node path cost conns (q, vis) = .ok (q', vis') →
      ∀ x ∈ vis, x ∈ vis' := by
  intro conns
  induction conns with
  | nil =>
    intro q vis q' vis' h x hx
    simp only [Graph.localScan, Except.ok.injEq, Prod.mk.injEq] at h
    exact h.2 ▸ hx
  | cons vid vs ih =>
    intro q vis q' vis' h x hx
    simp only [Graph.localScan] at h
    split at h
    · exact Except.noConfusion h
    · split at h
      · exact ih q vis q' vis' h x hx
      · split at h
        · exact ih _ _ q' vis' h x (List.mem_cons_of_mem _ hx)
        · exact ih q vis q' vis' h x hx

/-- Each push of the inner scan is paired with one insertion into `visited`. -/
theorem localScan_count (g : Graph) (node : Node) (path : List PathPoint)
    (cost : Int) :
    ∀ (conns : List VertexIdx) (q : List Graph.LEntry) (vis : List NodeIdx)
      (q' : List Graph.LEntry) (vis' : List NodeIdx),
      Graph.localScan g node path cost conns (q, vis) = .ok (q', vis') →
      q'.length + vis.length = q.length + vis'.length := by
  intro conns
  induction conns with
  | nil =>
    intro q vis q' vis' h
    simp only [Graph.localScan, Except.ok.injEq, Prod.mk.injEq] at h
    rw [h.1, h.2]
  | cons vid vs ih =>
    intro q vis q' vis' h
    simp only [Graph.localScan] at h
    split at h
    · exact Except.noConfusion h
    · split at h
      · exact ih q vis q' vis' h
      · split at h
        · have := ih _ _ q' vis' h
          simp only [List.length_append, List.length_cons,
            List.length_nil] at this
          omega
        · exact ih q vis q' vis' h

/-- The inner scan never shortens the queue. -/
theorem localScan_queue_len (g : Graph) (node : Node) (path : List PathPoint)
    (cost : Int) :
    ∀ (conns : List VertexIdx) (q : List Graph.LEntry) (vis : List NodeIdx)
      (q' : List Graph.LEntry) (vis' : List NodeIdx),
      Graph.localScan g node path cost conns (q, vis) = .ok (q', vis') →
      q.length ≤ q'.length := by
  intro conns
  induction conns with
  | nil =>
    intro q vis q' vis' h
    simp only [Graph.localScan, Except.ok.injEq, Prod.mk.injEq] at h
    exact h.1 ▸ Nat.le_refl _
  | cons vid vs ih =>
    intro q vis q' vis' h
    simp only [Graph.localScan] at h
    split at h
    · exact Except.noConfusion h
    · split at h
      · exact ih q vis q' vis' h
      · split at h
        · have := ih _ _ q' vis' h
          simp only [List.length_append, List.length_cons,
            List.length_nil] at this
          omega
        · exact ih q vis q' vis' h

/-- The inner scan preserves distinctness of the visited set. -/
theorem localScan_nodup (g : Graph) (node : Node) (path : List PathPoint)
    (cost : Int) :
    ∀ (conns : List VertexIdx) (q : List Graph.LEntry) (vis : List NodeIdx)
      (q' : List Graph.LEntry) (vis' : List NodeIdx),
      Graph.localScan g node path cost conns (q, vis) = .ok (q', vis') →
      vis.Nodup → vis'.Nodup := by
  intro conns
  induction conns with
  | nil =>
    intro q vis q' vis' h hnd
    simp only [Graph.localScan, Except.ok.injEq, Prod.mk.injEq] at h
    exact h.2 ▸ hnd
  | cons vid vs ih =>
    intro q vis q' vis' h hnd
    simp only [Graph.localScan] at h
    split at h
    · exact Except.noConfusion h
    · split at h
      · exact ih q vis q' vis' h hnd
      · rename_i hnotvis
        split at h
        · exact ih _ _ q' vis' h (List.nodup_cons.mpr ⟨hnotvis, hnd⟩)
        · exact ih q vis q' vis' h hnd

/-- The inner scan only inserts keys of the node map into `visited`. -/
theorem localScan_vis_keys (g : Graph) (node : Node) (path : List PathPoint)
    (cost : Int) :
    ∀ (conns : List VertexIdx) (q : List Graph.LEntry) (vis : List NodeIdx)
      (q' : List Graph.LEntry) (vis' : List NodeIdx),
      Graph.localScan g node path cost conns (q, vis) = .ok (q', vis') →
      (∀ x ∈ vis, ∃ n, lookupA x g.nodes = some n) →
      ∀ x ∈ vis', ∃ n, lookupA x g.nodes = some n := by
  intro conns
  induction conns with
  | nil =>
    intro q vis q' vis' h hk x hx
    simp only [Graph.localScan, Except.ok.injEq, Prod.mk.injEq] at h
    exact hk x (h.2 ▸ hx)
  | cons vid vs ih =>
    intro q vis q' vis' h hk x hx
    simp only [Graph.localScan] at h
    split at h
    · exact Except.noConfusion h
    · split at h
      · exact ih q vis q' vis' h hk x hx
      · split at h
        · rename_i next_node hnn
          refine ih _ _ q' vis' h ?_ x hx
          intro y hy
          rcases List.mem_cons.mp hy with rfl | hy'
          · exact ⟨next_node, hnn⟩
          · exact hk y hy'
        · exact ih q vis q' vis' h hk x hx

/-- Every entry of the scanned queue was there before or is a freshly pushed
neighbour of the scanned node through one of its connections. -/
theorem localScan_new_entries (g : Graph) (node : Node) (path : List PathPoint)
    (cost : Int) :
    ∀ (conns : List VertexIdx) (q : List Graph.LEntry) (vis : List NodeIdx)
      (q' : List Graph.LEntry) (vis' : List NodeIdx),
      Graph.localScan g node path cost conns (q, vis) = .ok (q', vis') →
      ∀ e ∈ q', e ∈ q ∨ ∃ vid vx, vid ∈ conns ∧
        lookupA vid g.vertices = some vx ∧
        lookupA (vx.get_neighbour node.id) g.nodes = some e.1.1 := by
  intro conns
  induction conns with
  | nil =>
    intro q vis q' vis' h e he
    simp only [Graph.localScan, Except.ok.injEq, Prod.mk.injEq] at h
    exact Or.inl (h.1 ▸ he)
  | cons vid vs ih =>
    intro q vis q' vis' h e he
    simp only [Graph.localScan] at h
    split at h
    · exact Except.noConfusion h
    · rename_i vx hvx
      split at h
      · rcases ih q vis q' vis' h e he with h0 | ⟨vid', vx', hm, hl, hn⟩
        · exact Or.inl h0
        · exact Or.inr ⟨vid', vx', List.mem_cons_of_mem _ hm, hl, hn⟩
      · split at h
        · rename_i next_node hnn
          rcases ih _ _ q' vis' h e he with h0 | ⟨vid', vx', hm, hl, hn⟩
          · rcases List.mem_append.mp h0 with h1 | h1
            · exact Or.inl h1
            · simp only [List.mem_singleton] at h1
              exact Or.inr ⟨vid, vx, List.mem_cons_self _ _, hvx, by rw [h1]; exact hnn⟩
          · exact Or.inr ⟨vid', vx', List.mem_cons_of_mem _ hm, hl, hn⟩
        · rcases ih q vis q' vis' h e he with h0 | ⟨vid', vx', hm, hl, hn⟩
          · exact Or.inl h0
          · exact Or.inr ⟨vid', vx', List.mem_cons_of_mem _ hm, hl, hn⟩

/-- Every id inserted into `visited` by the inner scan is the node of an
entry of the resulting queue. -/
theorem localScan_vis_new (g : Graph) (node : Node) (path : List PathPoint)
    (cost : Int) :
    ∀ (conns : List VertexIdx) (q : List Graph.LEntry) (vis : List NodeIdx)
      (q' : List Graph.LEntry) (vis' : List NodeIdx),
      Graph.localScan g node path cost conns (q, vis) = .ok (q', vis') →
      ∀ x ∈ vis', x ∈ vis ∨ ∃ e, e ∈ q' ∧ lookupA x g.nodes = some e.1.1 := by
  intro conns
  induction conns with
  | nil =>
    intro q vis q' vis' h x hx
    simp only [Graph.localScan, Except.ok.injEq, Prod.mk.injEq] at h
    exact Or.inl (h.2 ▸ hx)
  | cons vid vs ih =>
    intro q vis q' vis' h x hx
    simp only [Graph.localScan] at h
    split at h
    · exact Except.noConfusion h
    · rename_i vx hvx
      split at h
      · exact ih q vis q' vis' h x hx
      · split at h
        · rename_i next_node hnn
          rcases ih _ _ q' vis' h x hx with h0 | hex
          · rcases List.mem_cons.mp h0 with rfl | h1
            · exact Or.inr ⟨((next_node, path ++ [PathPoint.ofNode next_node]),
                -(cost + (vx.weight : Int))),
                localScan_queue_mono g node path cost vs _ _ q' vis' h _
                  (List.mem_append_right _ (List.mem_singleton.mpr rfl)), hnn⟩
            · exact Or.inl h1
          · exact Or.inr hex
        · exact ih q vis q' vis' h x hx

/-- After a successful inner scan over all connections of `node`, every
neighbour of `node` that is held in the node map is in `visited`. -/
theorem localScan_neighbors (g : Graph) (node : Node) (path : List PathPoint)
    (cost : Int) :
    ∀ (conns : List VertexIdx) (q : List Graph.LEntry) (vis : List NodeIdx)
      (q' : List Graph.LEntry) (vis' : List NodeIdx),
      Graph.localScan g node path cost conns (q, vis) = .ok (q', vis') →
      ∀ vid ∈ conns, ∀ vx, lookupA vid g.vertices = some vx →
      ∀ nn, lookupA (vx.get_neighbour node.id) g.nodes = some nn →
      vx.get_neighbour node.id ∈ vis' := by
  intro conns
  induction conns with
  | nil =>
    intro q vis q' vis' h vid hvid
    exact absurd hvid (List.not_mem_nil vid)
  | cons vid vs ih =>
    intro q vis q' vis' h vid0 hvid0 vx0 hvx0 nn hnn
    simp only [Graph.localScan] at h
    split at h
    · exact Except.noConfusion h
    · rename_i vx hvx
      rcases List.mem_cons.mp hvid0 with rfl | htail
      · have hvv : vx0 = vx := by
          rw [hvx0] at hvx
          exact Option.some.inj hvx
        subst hvv
        split at h
        · rename_i hmem
          exact localScan_vis_mono g node path cost vs q vis q' vis' h _ hmem
        · split at h
          · exact localScan_vis_mono g node path cost vs _ _ q' vis' h _
              (List.mem_cons_self _ _)
          · rename_i hnone
            rw [hnone] at hnn
            exact Option.noConfusion hnn
      · split at h
        · exact ih q vis q' vis' h vid0 htail vx0 hvx0 nn hnn
        · split at h
          · exact ih _ _ q' vis' h vid0 htail vx0 hvx0 nn hnn
          · exact ih q vis q' vis' h vid0 htail vx0 hvx0 nn hnn

/-- When every scanned connection resolves to a vertex, the inner scan
cannot fail. -/
theorem localScan_ok (g : Graph) (node : Node) (path : List PathPoint)
    (cost : Int) :
    ∀ (conns : List VertexIdx) (q : List Graph.LEntry) (vis : List NodeIdx),
      (∀ vid ∈ conns, (lookupA vid g.vertices).isSome) →
      ∃ q' vis', Graph.localScan g node path cost conns (q, vis) =
        .ok (q', vis') := by
  intro conns
  induction conns with
  | nil => intro q vis _; exact ⟨q, vis, rfl⟩
  | cons vid vs ih =>
    intro q vis hres
    obtain ⟨vx, hvx⟩ :=
      Option.isSome_iff_exists.mp (hres vid (List.mem_cons_self _ _))
    have htail : ∀ v ∈ vs, (lookupA v g.vertices).isSome :=
      fun v hv => hres v (List.mem_cons_of_mem _ hv)
    simp only [Graph.localScan, hvx]
    by_cases hmem : vx.get_neighbour node.id ∈ vis
    · rw [if_pos hmem]
      exact ih q vis htail
    · rw [if_neg hmem]
      cases hnn : lookupA (vx.get_neighbour node.id) g.nodes with
      | none => exact ih q vis htail
      | some next_node => exact ih _ _ htail

/-- A duplicate-free visited set of node-map keys is no larger than the
deduplicated key list. -/
theorem visited_le_dedup (g : Graph) (vis : List NodeIdx) (hnd : vis.Nodup)
    (hkeys : ∀ x ∈ vis, ∃ n, lookupA x g.nodes = some n) :
    vis.length ≤ (g.nodes.map Prod.fst).dedup.length := by
  have hsub : vis ⊆ (g.nodes.map Prod.fst).dedup := by
    intro x hx
    obtain ⟨n, hn⟩ := hkeys x hx
    exact List.mem_dedup.mpr (lookupA_key_mem hn)
  exact (hnd.subperm hsub).length_le

/-- On a well-formed graph, the outer loop of `find_way_local` terminates
within the fuel bound and ends in `TargetReached` or `Unreachable` — never in
a vertex error and never out of fuel. -/
theorem localLoop_total (g : Graph) (target : NodeInfo) (hwf : g.WF) :
    ∀ (fuel : Nat) (queue : List Graph.LEntry) (vis : List NodeIdx),
      (∀ e ∈ queue, ∃ k, lookupA k g.nodes = some e.1.1) →
      vis.Nodup →
      (∀ x ∈ vis, ∃ n, lookupA x g.nodes = some n) →
      (g.nodes.map Prod.fst).dedup.length - vis.length + queue.length + 1 ≤ fuel →
      ∃ r, Graph.localLoop g target fuel (queue, vis) = some r ∧
        ((∃ p c, r = .ok (.TargetReached p c)) ∨
         r = .error (.Unreachable target.1 target.2)) := by
  intro fuel
  induction fuel with
  | zero => intro queue vis _ _ _ hf; omega
  | succ fuel ih =>
    intro queue vis hq hnd hkeys hf
    cases hpop : popMax queue with
    | none =>
      refine ⟨.error (.Unreachable target.1 target.2), ?_, Or.inr rfl⟩
      simp [Graph.localLoop, hpop]
    | some pr =>
      obtain ⟨⟨⟨node, path⟩, prio⟩, rest⟩ := pr
      by_cases hid : node.id = target.1
      · refine ⟨.ok (.TargetReached path (-prio).toNat), ?_, Or.inl ⟨_, _, rfl⟩⟩
        simp [Graph.localLoop, hpop, hid]
      · obtain ⟨k, hk⟩ := hq _ (popMax_mem hpop)
        have hres : ∀ vid ∈ node.connections,
            (lookupA vid g.vertices).isSome := by
          intro vid hvid
          have hrt := hwf.2 (k, node) (lookupA_mem hk) vid hvid
          unfold resolvesTo at hrt
          cases hl : lookupA vid g.vertices with
          | none => rw [hl] at hrt; exact hrt.elim
          | some vx => rfl
        obtain ⟨q', vis', hscan⟩ :=
          localScan_ok g node path (-prio) node.connections rest vis hres
        have hq' : ∀ e ∈ q', ∃ k', lookupA k' g.nodes = some e.1.1 := by
          intro e he
          rcases localScan_new_entries g node path (-prio) node.connections
            rest vis q' vis' hscan e he with h0 | ⟨vid, vx, _, _, hn⟩
          · exact hq e (popMax_rest_sub hpop e h0)
          · exact ⟨_, hn⟩
        have hnd' := localScan_nodup g node path (-prio) node.connections
          rest vis q' vis' hscan hnd
        have hkeys' := localScan_vis_keys g node path (-prio) node.connections
          rest vis q' vis' hscan hkeys
        have hcount := localScan_count g node path (-prio) node.connections
          rest vis q' vis' hscan
        have hqlen := localScan_queue_len g node path (-prio) node.connections
          rest vis q' vis' hscan
        have hrl := popMax_length hpop
        have hv1 := visited_le_dedup g vis hnd hkeys
        have hv2 := visited_le_dedup g vis' hnd' hkeys'
        have hf' : (g.nodes.map Prod.fst).dedup.length - vis'.length +
            q'.length + 1 ≤ fuel := by omega
        obtain ⟨r, hr, hshape⟩ := ih q' vis' hq' hnd' hkeys' hf'
        refine ⟨r, ?_, hshape⟩
        simp only [Graph.localLoop, hpop, if_neg hid, hscan]
        exact hr

/-- The only error the inner scan can produce is a vertex-lookup failure. -/
theorem localScan_error (g : Graph) (node : Node) (path : List PathPoint)
    (cost : Int) :
    ∀ (conns : List VertexIdx) (q : List Graph.LEntry) (vis : List NodeIdx)
      (e : GraphError),
      Graph.localScan g node path cost conns (q, vis) = .error e →
      ∃ vid, e = .VertexNotFound vid g.region_idx := by
  intro conns
  induction conns with
  | nil =>
    intro q vis e h
    exact Except.noConfusion h
  | cons vid vs ih =>
    intro q vis e h
    simp only [Graph.localScan] at h
    split at h
    · simp only [Except.error.injEq] at h
      exact ⟨vid, h.symm⟩
    · split at h
      · exact ih q vis e h
      · split at h
        · exact ih _ _ e h
        · exact ih q vis e h

/-- A set of nodes whose in-map neighbours all lie in `vis`, when `vis`
resolves back into the set, is closed under reachability. -/
theorem reaches_closed (g : Graph) (P : List Node) (vis : List NodeIdx)
    (hInv1 : ∀ p ∈ P, ∀ vid ∈ p.connections, ∀ vx,
      lookupA vid g.vertices = some vx →
      ∀ nn, lookupA (vx.get_neighbour p.id) g.nodes = some nn →
        vx.get_neighbour p.id ∈ vis)
    (hInv2 : ∀ x ∈ vis, ∀ nn, lookupA x g.nodes = some nn → nn ∈ P) :
    ∀ x ∈ P, ∀ n, Reaches g x n → n ∈ P := by
  intro x hx n hr
  induction hr with
  | refl => exact hx
  | step hab hvid hvx hc ih =>
    exact hInv2 _ (hInv1 _ ih _ hvid _ hvx _ hc) _ hc

/-- If the loop of `find_way_local` drains its queue and reports
`Unreachable`, then no node reachable from a queued node (or from an already
popped node of the ghost set `P`) carries the target id. -/
theorem localLoop_unreach (g : Graph) (target : NodeInfo) :
    ∀ (fuel : Nat) (queue : List Graph.LEntry) (vis : List NodeIdx)
      (P : List Node),
      (∀ p ∈ P, ∀ vid ∈ p.connections, ∀ vx,
        lookupA vid g.vertices = some vx →
        ∀ nn, lookupA (vx.get_neighbour p.id) g.nodes = some nn →
          vx.get_neighbour p.id ∈ vis) →
      (∀ x ∈ vis, ∀ nn, lookupA x g.nodes = some nn →
        nn ∈ P ∨ ∃ e ∈ queue, e.1.1 = nn) →
      (∀ p ∈ P, p.id ≠ target.1) →
      Graph.localLoop g target fuel (queue, vis) =
        some (.error (.Unreachable target.1 target.2)) →
      ∀ x : Node, (x ∈ P ∨ ∃ e ∈ queue, e.1.1 = x) →
      ∀ n, Reaches g x n → n.id ≠ target.1 := by
  intro fuel
  induction fuel with
  | zero => intro queue vis P _ _ _ h; exact Option.noConfusion h
  | succ fuel ih =>
    intro queue vis P hInv1 hInv2 hInv3 h x hx n hr
    cases hpop : popMax queue with
    | none =>
      have hqnil := popMax_none hpop
      subst hqnil
      have hx' : x ∈ P := by
        rcases hx with h0 | ⟨e, he, _⟩
        · exact h0
        · exact absurd he (List.not_mem_nil e)
      have hInv2' : ∀ y ∈ vis, ∀ nn, lookupA y g.nodes = some nn → nn ∈ P := by
        intro y hy nn hnn
        rcases hInv2 y hy nn hnn with h0 | ⟨e, he, _⟩
        · exact h0
        · exact absurd he (List.not_mem_nil e)
      exact hInv3 _ (reaches_closed g P vis hInv1 hInv2' x hx' n hr)
    | some pr =>
      obtain ⟨⟨⟨node, path⟩, prio⟩, rest⟩ := pr
      simp only [Graph.localLoop, hpop] at h
      by_cases hid : node.id = target.1
      · rw [if_pos hid] at h
        exact Except.noConfusion (Option.some.inj h)
      · rw [if_neg hid] at h
        cases hscan : Graph.localScan g node path (-prio) node.connections
            (rest, vis) with
        | error e =>
          rw [hscan] at h
          obtain ⟨vid, rfl⟩ := localScan_error g node path (-prio)
            node.connections rest vis e hscan
          exact GraphError.noConfusion (Except.error.inj (Option.some.inj h))
        | ok s =>
          obtain ⟨q', vis'⟩ := s
          rw [hscan] at h
          have hInv1' : ∀ p ∈ node :: P, ∀ vid ∈ p.connections, ∀ vx,
              lookupA vid g.vertices = some vx →
              ∀ nn, lookupA (vx.get_neighbour p.id) g.nodes = some nn →
                vx.get_neighbour p.id ∈ vis' := by
            intro p hp vid hvid vx hvx nn hnn
            rcases List.mem_cons.mp hp with rfl | hp'
            · exact localScan_neighbors g p path (-prio) p.connections
                rest vis q' vis' hscan vid hvid vx hvx nn hnn
            · exact localScan_vis_mono g node path (-prio) node.connections
                rest vis q' vis' hscan _
                (hInv1 p hp' vid hvid vx hvx nn hnn)
          have hInv2' : ∀ y ∈ vis', ∀ nn, lookupA y g.nodes = some nn →
              nn ∈ node :: P ∨ ∃ e ∈ q', e.1.1 = nn := by
            intro y hy nn hnn
            rcases localScan_vis_new g node path (-prio) node.connections
              rest vis q' vis' hscan y hy with h0 | ⟨e0, he0, hle⟩
            · rcases hInv2 y h0 nn hnn with h1 | ⟨e, he, hen⟩
              · exact Or.inl (List.mem_cons_of_mem _ h1)
              · rcases popMax_cover hpop e he with rfl | he'
                · exact Or.inl (hen ▸ List.mem_cons_self node P)
                · exact Or.inr ⟨e, localScan_queue_mono g node path (-prio)
                    node.connections rest vis q' vis' hscan e he', hen⟩
            · have : e0.1.1 = nn := Option.some.inj ((hle.symm).trans hnn)
              exact Or.inr ⟨e0, he0, this⟩
          have hInv3' : ∀ p ∈ node :: P, p.id ≠ target.1 := by
            intro p hp
            rcases List.mem_cons.mp hp with rfl | hp'
            · exact hid
            · exact hInv3 p hp'
          have hx' : x ∈ node :: P ∨ ∃ e ∈ q', e.1.1 = x := by
            rcases hx with h0 | ⟨e, he, hex⟩
            · exact Or.inl (List.mem_cons_of_mem _ h0)
            · rcases popMax_cover hpop e he with rfl | he'
              · exact Or.inl (hex ▸ List.mem_cons_self node P)
              · exact Or.inr ⟨e, localScan_queue_mono g node path (-prio)
                  node.connections rest vis q' vis' hscan e he', hex⟩
          exact ih q' vis' (node :: P) hInv1' hInv2' hInv3' h x hx' n hr

/-- If the loop of `find_way_local` reports `TargetReached` and every queued
node is reachable from `start`, a node with the target id is reachable from
`start`. -/
theorem localLoop_reached (g : Graph) (target : NodeInfo) (start : Node) :
    ∀ (fuel : Nat) (queue : List Graph.LEntry) (vis : List NodeIdx),
      (∀ e ∈ queue, Reaches g start e.1.1) →
      ∀ p c, Graph.localLoop g target fuel (queue, vis) =
        some (.ok (.TargetReached p c)) →
      ∃ n, Reaches g start n ∧ n.id = target.1 := by
  intro fuel
  induction fuel with
  | zero => intro queue vis _ p c h; exact Option.noConfusion h
  | succ fuel ih =>
    intro queue vis hreach p c h
    cases hpop : popMax queue with
    | none =>
      simp only [Graph.localLoop, hpop] at h
      exact Except.noConfusion (Option.some.inj h)
    | some pr =>
      obtain ⟨⟨⟨node, path⟩, prio⟩, rest⟩ := pr
      simp only [Graph.localLoop, hpop] at h
      by_cases hid : node.id = target.1
      · exact ⟨node, hreach _ (popMax_mem hpop), hid⟩
      · rw [if_neg hid] at h
        cases hscan : Graph.localScan g node path (-prio) node.connections
            (rest, vis) with
        | error e =>
          rw [hscan] at h
          exact Except.noConfusion (Option.some.inj h)
        | ok s =>
          obtain ⟨q', vis'⟩ := s
          rw [hscan] at h
          refine ih q' vis' ?_ p c h
          intro e he
          rcases localScan_new_entries g node path (-prio) node.connections
            rest vis q' vis' hscan e he with h0 | ⟨vid, vx, hm, hl, hn⟩
          · exact hreach e (popMax_rest_sub hpop e h0)
          · exact Reaches.step (hreach _ (popMax_mem hpop)) hm hl hn

/-- C8: on a well-formed graph with a resolvable start node,
`find_way_local` returns the `Unreachable` error exactly when no node with
the target's id is reachable from the start node within this region's
node/vertex maps, and the only other outcome is `TargetReached`. -/
theorem find_way_local_unreachable_iff (g : Graph) (source target : NodeInfo)
    (start : Node) (hwf : g.WF)
    (hstart : lookupA source.1 g.nodes = some start) :
    (g.find_way_local source target =
        some (.error (.Unreachable target.1 target.2)) ↔
      ¬ ∃ n, Reaches g start n ∧ n.id = target.1) ∧
    (∃ r, g.find_way_local source target = some r ∧
      ((∃ p c, r = .ok (.TargetReached p c)) ∨
       r = .error (.Unreachable target.1 target.2))) := by
  have hun : g.find_way_local source target =
      Graph.localLoop g target (g.nodes.length + 2)
        ([((start, [PathPoint.ofNode start]), 0)], []) := by
    simp [Graph.find_way_local, hstart]
  have hqinv : ∀ e ∈ [((start, [PathPoint.ofNode start]), (0 : Int))],
      ∃ k, lookupA k g.nodes = some e.1.1 := by
    intro e he
    simp only [List.mem_singleton] at he
    subst he
    exact ⟨source.1, hstart⟩
  have hfuel : (g.nodes.map Prod.fst).dedup.length -
      ([] : List NodeIdx).length +
      ([((start, [PathPoint.ofNode start]), (0 : Int))]).length + 1 ≤
      g.nodes.length + 2 := by
    have h1 : (g.nodes.map Prod.fst).dedup.length ≤ g.nodes.length := by
      calc (g.nodes.map Prod.fst).dedup.length
          ≤ (g.nodes.map Prod.fst).length := (List.dedup_sublist _).length_le
        _ = g.nodes.length := List.length_map _ _
    simp only [List.length_nil, List.length_cons, Nat.sub_zero]
    omega
  obtain ⟨r, hr, hshape⟩ := localLoop_total g target hwf (g.nodes.length + 2)
    [((start, [PathPoint.ofNode start]), 0)] [] hqinv List.nodup_nil
    (fun x hx => absurd hx (List.not_mem_nil x)) hfuel
  constructor
  · constructor
    · intro hu hexn
      obtain ⟨n, hrn, hid⟩ := hexn
      refine localLoop_unreach g target (g.nodes.length + 2) _ [] []
        (fun p hp => absurd hp (List.not_mem_nil p))
        (fun x hx => absurd hx (List.not_mem_nil x))
        (fun p hp => absurd hp (List.not_mem_nil p))
        (hun ▸ hu) start ?_ n hrn hid
      exact Or.inr ⟨_, List.mem_singleton.mpr rfl, rfl⟩
    · intro hnex
      rcases hshape with ⟨p, c, rfl⟩ | rfl
      · refine absurd (localLoop_reached g target start (g.nodes.length + 2)
          _ [] ?_ p c hr) hnex
        intro e he
        simp only [List.mem_singleton] at he
        subst he
        exact Reaches.refl start
      · rw [hun]; exact hr
  · refine ⟨r, ?_, hshape⟩
    rw [hun]; exact hr

/-- Witness for C8 on the triangle region: node 3 is reachable from node 1,
and indeed the search does not answer `Unreachable`. -/
theorem find_way_local_unreachable_iff_witness :
    (gTriangle.find_way_local (1, 0) (3, 0) =
        some (.error (.Unreachable 3 0)) ↔
      ¬ ∃ n, Reaches gTriangle ⟨[1, 2], 1, 0, 0, 0⟩ n ∧ n.id = 3) ∧
    (∃ r, gTriangle.find_way_local (1, 0) (3, 0) = some r ∧
      ((∃ p c, r = .ok (.TargetReached p c)) ∨
       r = .error (.Unreachable 3 0))) :=
  find_way_local_unreachable_iff gTriangle (1, 0) (3, 0)
    ⟨[1, 2], 1, 0, 0, 0⟩ (by decide) (by decide)
